import Mathlib

/-!
Shallow embedding of the Tetris rules engine from `src/tetris.rs`
(a falling-block game core for embedded hardware), together with proofs
about the claims of its specification.

Conventions of the embedding:
* `i16` coordinates become `Int` (the game never comes close to the
  `i16` range in any quantity the claims speak about).
* the `C × R` board (`[[Cell; C]; R]`) becomes a `List (List Cell)`
  whose length-`R` / row-length-`C` well-formedness is a hypothesis
  where a claim needs it; `C` and `R` are passed explicitly.
* `heapless::Vec<T, N>` becomes a `List T`; a `push` that can fail
  checks `length < N` exactly as the fixed-capacity vector does.
* code that can panic (`unwrap` on the RNG or on an empty queue)
  returns `Option`.
* the RNG together with `shuffle` is modelled by a stream of bags:
  entry `k` of the stream is the queue contents right after the
  `k`-th refill's shuffle; that every shuffle yields a permutation of
  the canonical bag is the `ValidStream` hypothesis.
-/

set_option autoImplicit false

namespace Tet

/-- `Coordination`: a signed 2D integer position. -/
structure Coordination where
  x : Int
  y : Int
deriving DecidableEq

/-- `Tetromino`: the 7 piece kinds. -/
inductive Tetromino where
  | L
  | J
  | T
  | O
  | Z
  | S
  | I
deriving DecidableEq

/-- `Rotation`: the 4 rotation states. -/
inductive Rotation where
  | Default
  | Left
  | Flipped
  | Right
deriving DecidableEq

/-- `Cell`: board cell state (`Occured` is the source's spelling). -/
inductive Cell where
  | Occured
  | Empty
deriving DecidableEq

/-- `Action`: the player/timer actions. -/
inductive Action where
  | MoveLeft
  | MoveRight
  | SoftDrop
  | HardDrop
  | Rotate
deriving DecidableEq

/-- `BoardUpdate<N>`: the bounded change notification. -/
inductive BoardUpdate where
  | Full
  | Partial (entries : List (Coordination × Cell))
  | None
deriving DecidableEq

/-- The empty row `[Cell::Empty; C]`. -/
def emptyRow (C : Nat) : List Cell := List.replicate C Cell.Empty

/-- The empty board `[[Cell::Empty; C]; R]` (`Board::new`). -/
def emptyBoard (C R : Nat) : List (List Cell) := List.replicate R (emptyRow C)

/-- Read `inner[y][x]` (total here; all reads the code performs are in bounds). -/
def cellAt (board : List (List Cell)) (y x : Nat) : Cell :=
  (board.getD y []).getD x Cell.Empty

/-- Write `inner[y][x] = c` (total here; a write beyond the grid's extent
changes nothing, where the source would panic — no claim exercises that). -/
def setCell (board : List (List Cell)) (y x : Nat) (c : Cell) : List (List Cell) :=
  board.set y ((board.getD y []).set x c)

/-- `Board::can_move_in`: every block whose absolute `y` is non-negative must be
inside the grid and on a non-occupied cell; blocks with `y < 0` are skipped
entirely (the loop `continue`s before any other check). -/
def canMoveIn (C R : Nat) (board : List (List Cell)) (blocks : List Coordination)
    (offset : Coordination) : Bool :=
  blocks.all fun block =>
    let x := block.x + offset.x
    let y := block.y + offset.y
    if y < 0 then true
    else if (R : Int) ≤ y ∨ x < 0 ∨ (C : Int) ≤ x then false
    else !(cellAt board y.toNat x.toNat == Cell.Occured)

/-- `Board::wall_bounce_offset_modifier`: scan the blocks accumulating the
horizontal shift that would bring out-of-range x coordinates back in range. -/
def wallBounceOffsetModifier (C : Nat) (blocks : List Coordination)
    (offset : Coordination) : Int :=
  blocks.foldl
    (fun modifier block =>
      let x := block.x + offset.x
      if x < 0 then max modifier (-x)
      else if (C : Int) ≤ x then min modifier ((C : Int) - x - 1)
      else modifier)
    0

/-- The loop body of `wall_bounce_offset_modifier`, named so the fold can be
reasoned about with an arbitrary accumulator (definitionally equal to the
lambda inside `wallBounceOffsetModifier`). -/
def wbStep (C : Nat) (off : Coordination) (modifier : Int)
    (block : Coordination) : Int :=
  let x := block.x + off.x
  if x < 0 then max modifier (-x)
  else if (C : Int) ≤ x then min modifier ((C : Int) - x - 1)
  else modifier

/-- The write loop of `Board::place`: mark the four absolute cells `Occured`,
skipping blocks whose absolute `y` is negative.  The source casts `x` and
`y` to `usize` and indexes (panicking on a negative `x` or an index past the
grid); here `toNat` clamps instead — the difference is only reachable from a
piece that was never legally positioned, which the state machine cannot
produce (the piece was placeable at its current offset before the failed
downward probe). -/
def placeBlocks (board : List (List Cell)) (blocks : List Coordination)
    (offset : Coordination) : List (List Cell) :=
  blocks.foldl
    (fun b block =>
      let x := block.x + offset.x
      let y := block.y + offset.y
      if y < 0 then b else setCell b y.toNat x.toNat Cell.Occured)
    board

/-- A row in which every cell is `Occured`. -/
def isFullRow (row : List Cell) : Bool := row.all (fun c => c == Cell.Occured)

/-- Loop state of `Board::clear_full_lines`.  `idx` is the source's
`new_board_line_index`; it is a `usize` there, an `Int` here so that the
decrement that would underflow the `usize` is observable: `underflow` records
that a decrement produced a negative value (the source wraps around /
panics under debug overflow checks at that point), and `oob` records a write
that would fall outside the new board (the source would panic there). -/
structure ClfState where
  newBoard : List (List Cell)
  idx : Int
  removed : Nat
  underflow : Bool
  oob : Bool
deriving DecidableEq

/-- One iteration of the `clear_full_lines` loop on the row `row`. -/
def clfStep (R : Nat) (st : ClfState) (row : List Cell) : ClfState :=
  if isFullRow row then { st with removed := st.removed + 1 }
  else
    { newBoard := if 0 ≤ st.idx ∧ st.idx < (R : Int)
                  then st.newBoard.set st.idx.toNat row
                  else st.newBoard
      idx := st.idx - 1
      removed := st.removed
      underflow := st.underflow || decide (st.idx - 1 < 0)
      oob := st.oob || !decide (0 ≤ st.idx ∧ st.idx < (R : Int)) }

/-- Initial loop state of `clear_full_lines`: an all-empty new board and
`new_board_line_index = R - 1` (whose computation already underflows if
`R = 0`). -/
def clfInit (C R : Nat) : ClfState :=
  { newBoard := List.replicate R (emptyRow C)
    idx := (R : Int) - 1
    removed := 0
    underflow := decide ((R : Int) - 1 < 0)
    oob := false }

/-- `Board::clear_full_lines` as a loop over the rows from the bottom up
(`for line_index in (0..R).rev()`), with the instrumented state. -/
def clearFullLinesSt (C R : Nat) (board : List (List Cell)) : ClfState :=
  board.reverse.foldl (clfStep R) (clfInit C R)

/-- `Board::clear_full_lines`: the compacted board and the number of removed
lines. -/
def clearFullLines (C R : Nat) (board : List (List Cell)) :
    List (List Cell) × Nat :=
  let st := clearFullLinesSt C R board
  (st.newBoard, st.removed)

/-- `Board::place`: write the four blocks, then clear full lines; returns the
new board and the number of cleared lines. -/
def place (C R : Nat) (board : List (List Cell)) (blocks : List Coordination)
    (offset : Coordination) : List (List Cell) × Nat :=
  clearFullLines C R (placeBlocks board blocks offset)

/-- The fixed canonical order `TetrominoQueue::init` fills the bag with,
before shuffling. -/
def canonicalBag : List Tetromino :=
  [Tetromino.J, Tetromino.L, Tetromino.S, Tetromino.Z,
   Tetromino.T, Tetromino.O, Tetromino.I]

/-- Model of the random source threaded through the queue: `stream k` is the
bag contents right after the `k`-th refill's shuffle, `k` counts the refills
performed so far. -/
structure RngS where
  stream : Nat → List Tetromino
  k : Nat

/-- The random source is a valid shuffler: every refill produces a
permutation of the canonical bag. -/
def ValidStream (s : Nat → List Tetromino) : Prop :=
  ∀ i, (s i).Perm canonicalBag

/-- `TetrominoQueue::init`: fill with the canonical bag and shuffle it with
the random source (modelled by taking the next bag of the stream). -/
def queueInit (r : RngS) : List Tetromino × RngS :=
  (r.stream r.k, { r with k := r.k + 1 })

/-- `TetrominoQueue::next`: pop from the back of the queue (`Vec::pop`;
`none` models the `unwrap` panic on an empty queue), then refill eagerly if
the queue just became empty. -/
def queueNext (q : List Tetromino) (r : RngS) :
    Option (Tetromino × List Tetromino × RngS) :=
  match q.getLast? with
  | Option.none => Option.none
  | Option.some t =>
    let rest := q.dropLast
    if rest.isEmpty then
      let (q2, r2) := queueInit r
      Option.some (t, q2, r2)
    else Option.some (t, rest, r)

/-- Perform `n` consecutive `next()` calls, collecting the drawn kinds in
order. -/
def drawN : Nat → List Tetromino → RngS →
    Option (List Tetromino × List Tetromino × RngS)
  | 0, q, r => Option.some ([], q, r)
  | n + 1, q, r =>
    match queueNext q r with
    | Option.none => Option.none
    | Option.some (t, q2, r2) =>
      match drawN n q2 r2 with
      | Option.none => Option.none
      | Option.some (ds, q3, r3) => Option.some (t :: ds, q3, r3)

/-- The entry list built by `BoardUpdate::get_partial_update`: vacated
previous cells first, then newly covered cells. -/
def partialDiffEntries (previous current : List Coordination) :
    List (Coordination × Cell) :=
  (previous.filter fun b => decide (b ∉ current)).map (fun b => (b, Cell.Empty)) ++
    (current.filter fun b => decide (b ∉ previous)).map (fun b => (b, Cell.Occured))

/-- `BoardUpdate::get_partial_update`. -/
def getPartialUpdate (previous current : List Coordination) : BoardUpdate :=
  BoardUpdate.Partial (partialDiffEntries previous current)

/-- The inner scan of `BoardUpdate::merge`'s Partial/Partial case: find the
first entry with the same coordinate and overwrite its cell value; `none`
when no entry matches. -/
def overwriteFirst : List (Coordination × Cell) → Coordination × Cell →
    Option (List (Coordination × Cell))
  | [], _ => Option.none
  | e :: es, b =>
    if e.1 = b.1 then Option.some ((e.1, b.2) :: es)
    else (overwriteFirst es b).map (fun l => e :: l)

/-- The Partial/Partial loop of `BoardUpdate::merge` over the other update's
entries: overwrite in place when the coordinate is present, push otherwise,
and promote to `Full` (abandoning the loop) when the push fails because the
capacity-`N` vector is full. -/
def mergePartialLists (N : Nat) :
    List (Coordination × Cell) → List (Coordination × Cell) → BoardUpdate
  | selfData, [] => BoardUpdate.Partial selfData
  | selfData, b :: rest =>
    match overwriteFirst selfData b with
    | Option.some selfData2 => mergePartialLists N selfData2 rest
    | Option.none =>
      if selfData.length < N then mergePartialLists N (selfData ++ [b]) rest
      else BoardUpdate.Full

/-- `BoardUpdate::merge` for capacity `N`. -/
def BoardUpdate.merge (N : Nat) : BoardUpdate → BoardUpdate → BoardUpdate
  | BoardUpdate.None, other => other
  | BoardUpdate.Full, _ => BoardUpdate.Full
  | BoardUpdate.Partial selfData, BoardUpdate.None => BoardUpdate.Partial selfData
  | BoardUpdate.Partial _, BoardUpdate.Full => BoardUpdate.Full
  | BoardUpdate.Partial selfData, BoardUpdate.Partial otherData =>
    mergePartialLists N selfData otherData

/-- `State` (aliased `GameState` where the repository imports it). -/
inductive GameState where
  | New
  | Playing (piece : Tetromino) (rotation : Rotation) (offset : Coordination)
      (queue : List Tetromino) (score : Nat)
  | GameOver (score : Nat)

/-- The `Tetris<C, R, Rng>` orchestrator (C and R are passed to the
operations explicitly). -/
structure Tetris where
  board : List (List Cell)
  state : GameState
  rng : Option RngS

/-- `get_tetromino_blocks`: the shape table. -/
def getTetrominoBlocks (piece : Tetromino) (rotation : Rotation) :
    List Coordination :=
  let data : List (Int × Int) :=
    match piece, rotation with
    | Tetromino.O, _ => [(0, 0), (1, 0), (0, 1), (1, 1)]
    | Tetromino.I, Rotation.Left | Tetromino.I, Rotation.Right =>
      [(0, 1), (1, 1), (2, 1), (3, 1)]
    | Tetromino.I, _ => [(1, 0), (1, 1), (1, 2), (1, 3)]
    | Tetromino.S, Rotation.Default => [(0, 0), (1, 0), (1, 1), (2, 1)]
    | Tetromino.S, Rotation.Left => [(2, 0), (2, 1), (1, 1), (1, 2)]
    | Tetromino.S, Rotation.Flipped => [(2, 2), (1, 2), (1, 1), (0, 1)]
    | Tetromino.S, Rotation.Right => [(0, 2), (0, 1), (1, 1), (1, 0)]
    | Tetromino.Z, Rotation.Default => [(1, 0), (2, 0), (0, 1), (1, 1)]
    | Tetromino.Z, Rotation.Left => [(2, 1), (2, 2), (1, 0), (1, 1)]
    | Tetromino.Z, Rotation.Flipped => [(1, 2), (0, 2), (2, 1), (1, 1)]
    | Tetromino.Z, Rotation.Right => [(0, 1), (0, 0), (1, 2), (1, 1)]
    | Tetromino.L, Rotation.Default => [(0, 2), (1, 2), (1, 1), (1, 0)]
    | Tetromino.L, Rotation.Left => [(0, 0), (0, 1), (1, 1), (2, 1)]
    | Tetromino.L, Rotation.Flipped => [(2, 0), (1, 0), (1, 1), (1, 2)]
    | Tetromino.L, Rotation.Right => [(2, 2), (2, 1), (1, 1), (0, 1)]
    | Tetromino.T, Rotation.Default => [(1, 0), (0, 1), (1, 1), (2, 1)]
    | Tetromino.T, Rotation.Left => [(2, 1), (1, 0), (1, 1), (1, 2)]
    | Tetromino.T, Rotation.Flipped => [(1, 2), (2, 1), (1, 1), (0, 1)]
    | Tetromino.T, Rotation.Right => [(0, 1), (1, 2), (1, 1), (1, 0)]
    | Tetromino.J, Rotation.Default => [(0, 0), (1, 2), (1, 1), (1, 0)]
    | Tetromino.J, Rotation.Left => [(2, 0), (0, 1), (1, 1), (2, 1)]
    | Tetromino.J, Rotation.Flipped => [(2, 2), (1, 0), (1, 1), (1, 2)]
    | Tetromino.J, Rotation.Right => [(0, 2), (2, 1), (1, 1), (0, 1)]
  data.map fun v => Coordination.mk v.1 v.2

/-- `Tetris::get_current_tetromino_position`: the active piece's absolute
block coordinates, or four default coordinates when not playing. -/
def getCurrentTetrominoPosition (t : Tetris) : List Coordination :=
  match t.state with
  | GameState.Playing piece rotation offset _ _ =>
    (getTetrominoBlocks piece rotation).map fun block =>
      Coordination.mk (block.x + offset.x) (block.y + offset.y)
  | _ => List.replicate 4 (Coordination.mk 0 0)

/-- The rotation cycle of the `Rotate` branch of `Tetris::act`. -/
def nextRotation : Rotation → Rotation
  | Rotation.Default => Rotation.Left
  | Rotation.Left => Rotation.Flipped
  | Rotation.Flipped => Rotation.Right
  | Rotation.Right => Rotation.Default

/-- The spawn anchor `{ x: (C / 2) as i16, y: 0 }` of
`Tetris::spawn_new_piece`. -/
def spawnOffset (C : Nat) : Coordination := Coordination.mk (C / 2 : Nat) 0

/-- `Tetris::spawn_new_piece`: reset rotation and anchor, draw the next kind
from the queue, and fall to `GameOver` when the drawn piece cannot be placed
at the spawn anchor.  `none` models the panics of `rng.as_mut().unwrap()`
and of `queue.pop().unwrap()`. -/
def spawnNewPiece (C R : Nat) (t : Tetris) : Option Tetris :=
  match t.state with
  | GameState.Playing _ _ _ queue score =>
    match t.rng with
    | Option.none => Option.none
    | Option.some r =>
      match queueNext queue r with
      | Option.none => Option.none
      | Option.some (p, q2, r2) =>
        if canMoveIn C R t.board (getTetrominoBlocks p Rotation.Default)
            (spawnOffset C) then
          Option.some { t with
            state := GameState.Playing p Rotation.Default (spawnOffset C) q2 score
            rng := Option.some r2 }
        else
          Option.some { t with
            state := GameState.GameOver score
            rng := Option.some r2 }
  | _ => Option.some t

/-- The `SoftDrop` branch of `Tetris::act` (also reached from the `HardDrop`
branch by delegation), including `act`'s surrounding bookkeeping
(`previous_blocks`, the early return when not playing, and the final merge
of the accumulated update). -/
def actSoftDrop (C R : Nat) (t : Tetris) : Option (Tetris × BoardUpdate) :=
  let previousBlocks := getCurrentTetrominoPosition t
  match t.state with
  | GameState.Playing piece rotation offset queue score =>
    let blocks := getTetrominoBlocks piece rotation
    let newOffset := Coordination.mk offset.x (offset.y + 1)
    if canMoveIn C R t.board blocks newOffset then
      let t2 : Tetris :=
        { t with state := GameState.Playing piece rotation newOffset queue score }
      Option.some (t2,
        BoardUpdate.merge 16 BoardUpdate.None
          (getPartialUpdate previousBlocks (getCurrentTetrominoPosition t2)))
    else
      let placed := place C R t.board blocks offset
      let score2 := if 0 < placed.2 then score + placed.2 else score
      match spawnNewPiece C R
          { t with board := placed.1
                   state := GameState.Playing piece rotation offset queue score2 } with
      | Option.none => Option.none
      | Option.some t3 => Option.some (t3, BoardUpdate.Full)
  | _ => Option.some (t, BoardUpdate.None)

/-- The probe loop of the `HardDrop` branch: keep incrementing the y shift
while `can_move_in` passes; the result is the last y that passed (the source
rolls the final failing increment back).  The fuel argument stands for the
source's unbounded `while`; `act` supplies enough for the loop to reach its
exit condition. -/
def hardDropProbe (C R : Nat) (board : List (List Cell))
    (blocks : List Coordination) (x : Int) : Nat → Int → Int
  | 0, y => y
  | fuel + 1, y =>
    if canMoveIn C R board blocks (Coordination.mk x (y + 1)) then
      hardDropProbe C R board blocks x fuel (y + 1)
    else y

/-- `Tetris::act`. -/
def act (C R : Nat) (t : Tetris) (a : Action) : Option (Tetris × BoardUpdate) :=
  let previousBlocks := getCurrentTetrominoPosition t
  match t.state with
  | GameState.Playing piece rotation offset queue score =>
    match a with
    | Action.MoveLeft =>
      let blocks := getTetrominoBlocks piece rotation
      let newOffset := Coordination.mk (offset.x - 1) offset.y
      if canMoveIn C R t.board blocks newOffset then
        let t2 : Tetris :=
          { t with state := GameState.Playing piece rotation newOffset queue score }
        Option.some (t2,
          getPartialUpdate previousBlocks (getCurrentTetrominoPosition t2))
      else Option.some (t, BoardUpdate.None)
    | Action.MoveRight =>
      let blocks := getTetrominoBlocks piece rotation
      let newOffset := Coordination.mk (offset.x + 1) offset.y
      if canMoveIn C R t.board blocks newOffset then
        let t2 : Tetris :=
          { t with state := GameState.Playing piece rotation newOffset queue score }
        Option.some (t2,
          BoardUpdate.merge 16 BoardUpdate.None
            (getPartialUpdate previousBlocks (getCurrentTetrominoPosition t2)))
      else Option.some (t, BoardUpdate.None)
    | Action.SoftDrop => actSoftDrop C R t
    | Action.HardDrop =>
      let blocks := getTetrominoBlocks piece rotation
      let restY := hardDropProbe C R t.board blocks offset.x
        (((R : Int) - offset.y).toNat + 1) offset.y
      actSoftDrop C R
        { t with state := (GameState.Playing piece rotation
            (Coordination.mk offset.x restY) queue score) }
    | Action.Rotate =>
      let newRotation := nextRotation rotation
      let blocks := getTetrominoBlocks piece newRotation
      let newOffset := Coordination.mk
        (offset.x + wallBounceOffsetModifier C blocks offset) offset.y
      if canMoveIn C R t.board blocks newOffset then
        let t2 : Tetris :=
          { t with state := GameState.Playing piece newRotation newOffset queue score }
        Option.some (t2,
          BoardUpdate.merge 16 BoardUpdate.None
            (getPartialUpdate previousBlocks (getCurrentTetrominoPosition t2)))
      else Option.some (t, BoardUpdate.None)
  | _ => Option.some (t, BoardUpdate.None)

/-- The coordinates of a Partial update's entry list. -/
def entryCoords (l : List (Coordination × Cell)) : List Coordination :=
  l.map Prod.fst

/-- Association-list view of a Partial update's entries: the value stored at
a coordinate (the first matching entry). -/
def lookupCoord (l : List (Coordination × Cell)) (c : Coordination) :
    Option Cell :=
  (l.find? fun e => decide (e.1 = c)).map fun e => e.2

/-- The combined unique coordinates of two Partial updates, in merge order:
the first operand's coordinates followed by the second's that are new. -/
def combinedCoords (sd od : List (Coordination × Cell)) : List Coordination :=
  entryCoords sd ++ (entryCoords od).filter fun c => decide (c ∉ entryCoords sd)

/-- The draws produced by bags `0 .. k-1`: each refill's bag is consumed from
the back, so its draws appear reversed. -/
def joinBags (s : Nat → List Tetromino) (k : Nat) : List Tetromino :=
  (List.range k).flatMap fun i => (s i).reverse

/-- A concrete valid shuffle stream: the first bag is the canonical one
(ending in `I`, so `I` is drawn first from the back), every later bag is a
cyclic shift whose last element is `J` (so `J` is drawn first from it). -/
def cexStream : Nat → List Tetromino := fun i =>
  if i = 0 then canonicalBag
  else [Tetromino.L, Tetromino.S, Tetromino.Z, Tetromino.T,
        Tetromino.O, Tetromino.I, Tetromino.J]

/-! ### C10: what `can_move_in` checks for blocks above the board -/

/-- C10 (counterexample): on the empty 10×20 board, a piece containing the
block `(-5, -1)` — absolute y negative, absolute x far outside `[0, C)` —
still passes `can_move_in`: a negative y exempts the block from every check,
including the x-bounds one, so the claim "such a block still causes
`canMoveIn` to return false" fails here. -/
theorem canMoveIn_skips_x_check_for_negative_y :
    canMoveIn 10 20 (emptyBoard 10 20)
      [Coordination.mk (-5) (-1), Coordination.mk 0 0, Coordination.mk 1 0,
       Coordination.mk 2 0]
      (Coordination.mk 0 0) = true ∧
    (Coordination.mk (-5) (-1)).y + (Coordination.mk 0 0).y < 0 ∧
    (Coordination.mk (-5) (-1)).x + (Coordination.mk 0 0).x < 0 := by
  decide

theorem canMoveIn_characterization (C R : Nat) (board : List (List Cell))
    (blocks : List Coordination) (offset : Coordination) :
    canMoveIn C R board blocks offset = true ↔
      ∀ b ∈ blocks, 0 ≤ b.y + offset.y →
        (b.y + offset.y < (R : Int) ∧ 0 ≤ b.x + offset.x ∧
         b.x + offset.x < (C : Int) ∧
         cellAt board (b.y + offset.y).toNat (b.x + offset.x).toNat ≠
           Cell.Occured) := by
  simp only [canMoveIn, List.all_eq_true]
  refine forall_congr' fun b => imp_congr_right fun _ => ?_
  by_cases hy : b.y + offset.y < 0
  · simp [hy]
  · rw [if_neg hy]
    by_cases hc : (R : Int) ≤ b.y + offset.y ∨ b.x + offset.x < 0 ∨
        (C : Int) ≤ b.x + offset.x
    · rw [if_pos hc]
      simp only [Bool.false_eq_true, false_iff]
      intro h
      rcases h (by omega) with ⟨h1, h2, h3, _⟩
      omega
    · rw [if_neg hc]
      push_neg at hc
      simp only [Bool.not_eq_true', beq_eq_false_iff_ne, ne_eq]
      constructor
      · intro h _
        exact ⟨by omega, by omega, by omega, h⟩
      · intro h
        exact (h (by omega)).2.2.2

/-- C10 (amended): `can_move_in` exempts a block with negative absolute y
from all of its checks — bounds on both axes and cell occupancy alike — so
it returns `true` exactly when every block with non-negative absolute y lies
inside `[0, C) × [0, R)` on a non-occupied cell. -/
theorem canMoveIn_eq_true_iff (C R : Nat) (board : List (List Cell))
    (blocks : List Coordination) (offset : Coordination) :
    canMoveIn C R board blocks offset = true ↔
      ∀ b ∈ blocks, 0 ≤ b.y + offset.y →
        (b.y + offset.y < (R : Int) ∧ 0 ≤ b.x + offset.x ∧
         b.x + offset.x < (C : Int) ∧
         cellAt board (b.y + offset.y).toNat (b.x + offset.x).toNat ≠
           Cell.Occured) :=
  canMoveIn_characterization C R board blocks offset

/-- Witness for `canMoveIn_eq_true_iff`: evaluating the characterization on
a concrete board and piece. -/
theorem canMoveIn_eq_true_iff_witness :
    canMoveIn 10 20 (emptyBoard 10 20)
      (getTetrominoBlocks Tetromino.O Rotation.Default)
      (Coordination.mk 4 18) = true :=
  (canMoveIn_eq_true_iff 10 20 (emptyBoard 10 20)
    (getTetrominoBlocks Tetromino.O Rotation.Default)
    (Coordination.mk 4 18)).2 (by decide)

/-! ### C4 / C5: line clearing -/

theorem set_append_cons_length {α : Type} (l₁ : List α) (a : α) (l₂ : List α)
    (v : α) : (l₁ ++ a :: l₂).set l₁.length v = l₁ ++ v :: l₂ := by
  induction l₁ with
  | nil => simp
  | cons x xs ih => simp [ih]

theorem set_replicate_append {α : Type} (n : Nat) (hn : 0 < n) (a : α)
    (l : List α) (v : α) :
    (List.replicate n a ++ l).set (n - 1) v =
      List.replicate (n - 1) a ++ v :: l := by
  have hrep : List.replicate n a = List.replicate (n - 1) a ++ [a] := by
    have : n = (n - 1) + 1 := by omega
    rw [this, List.replicate_succ']
    simp
  rw [hrep, List.append_assoc, List.singleton_append]
  have h2 := set_append_cons_length (List.replicate (n - 1) a) a l v
  rwa [List.length_replicate] at h2

theorem clearFullLinesSt_cons (C R : Nat) (row : List Cell)
    (rest : List (List Cell)) :
    clearFullLinesSt C R (row :: rest) =
      clfStep R (clearFullLinesSt C R rest) row := by
  simp [clearFullLinesSt, List.reverse_cons, List.foldl_append]

/-- Characterization of the `clear_full_lines` loop: the rows that are not
full survive in order at the bottom of the new board, empty rows pad the
top, the removed count is the number of full rows, no write ever goes out
of bounds, and the final index is `R - 1 - #kept` — so the `usize`
decrement underflows exactly when every row of a nonempty board survives
(or when `R = 0`). -/
theorem clearFullLinesSt_spec (C R : Nat) (board : List (List Cell))
    (h : (board.filter fun r => !isFullRow r).length ≤ R) :
    clearFullLinesSt C R board =
      ClfState.mk
        (List.replicate (R - (board.filter fun r => !isFullRow r).length)
            (emptyRow C) ++ board.filter fun r => !isFullRow r)
        ((R : Int) - 1 - (board.filter fun r => !isFullRow r).length)
        (board.countP fun r => isFullRow r)
        (decide ((R : Int) - 1 -
          ((board.filter fun r => !isFullRow r).length : Int) < 0))
        false := by
  induction board with
  | nil => simp [clearFullLinesSt, clfInit]
  | cons row rest ih =>
    rw [clearFullLinesSt_cons]
    by_cases hfull : isFullRow row = true
    · have hf1 : (row :: rest).filter (fun r => !isFullRow r) =
          rest.filter fun r => !isFullRow r := by
        simp [List.filter_cons, hfull]
      rw [hf1] at h ⊢
      rw [ih h]
      simp [clfStep, hfull, List.countP_cons, hf1]
    · have hfull' : isFullRow row = false := by
        simpa using hfull
      have hf1 : (row :: rest).filter (fun r => !isFullRow r) =
          row :: (rest.filter fun r => !isFullRow r) := by
        simp [List.filter_cons, hfull']
      rw [hf1] at h ⊢
      have hk : (rest.filter fun r => !isFullRow r).length + 1 ≤ R := by
        simpa using h
      rw [ih (by omega)]
      set k := (rest.filter fun r => !isFullRow r).length with hkdef
      have hidx : (0 : Int) ≤ (R : Int) - 1 - (k : Int) ∧
          (R : Int) - 1 - (k : Int) < (R : Int) := by omega
      have htn : ((R : Int) - 1 - (k : Int)).toNat = R - k - 1 := by omega
      have hpos : 0 < R - k := by omega
      have hset : (List.replicate (R - k) (emptyRow C) ++
            rest.filter fun r => !isFullRow r).set (R - k - 1) row =
          List.replicate (R - k - 1) (emptyRow C) ++
            row :: (rest.filter fun r => !isFullRow r) := by
        have := set_replicate_append (R - k) hpos (emptyRow C)
          (rest.filter fun r => !isFullRow r) row
        simpa using this
      have hguard : decide ((0 : Int) ≤ (R : Int) - 1 - (k : Int) ∧
          (R : Int) - 1 - (k : Int) < (R : Int)) = true := decide_eq_true hidx
      have hnoUnder : decide ((R : Int) - 1 - (k : Int) < 0) = false := by
        simp only [decide_eq_false_iff_not]
        omega
      simp only [clfStep, hfull', Bool.false_eq_true, if_false, if_pos hidx,
        htn, hset, hguard, hnoUnder, Bool.false_or, Bool.not_true,
        Bool.or_false, ClfState.mk.injEq, List.countP_cons, List.length_cons]
      refine ⟨?_, ?_, ?_, ?_⟩
      · rw [Nat.sub_sub]
      · push_cast
        omega
      · simp [hfull']
      · refine ⟨decide_eq_decide.2 ?_, trivial⟩
        push_cast
        omega

theorem clearFullLines_eq (C R : Nat) (board : List (List Cell))
    (h : (board.filter fun r => !isFullRow r).length ≤ R) :
    clearFullLines C R board =
      (List.replicate (R - (board.filter fun r => !isFullRow r).length)
          (emptyRow C) ++ board.filter fun r => !isFullRow r,
       board.countP fun r => isFullRow r) := by
  unfold clearFullLines
  rw [clearFullLinesSt_spec C R board h]

theorem isFullRow_emptyRow (C : Nat) (hC : 0 < C) :
    isFullRow (emptyRow C) = false := by
  cases C with
  | zero => omega
  | succ n => simp [isFullRow, emptyRow, List.replicate_succ]

theorem clearFullLines_of_no_full (C R : Nat) (board : List (List Cell))
    (hR : board.length = R) (hnf : ∀ r ∈ board, isFullRow r = false) :
    clearFullLines C R board = (board, 0) := by
  have hfe : board.filter (fun r => !isFullRow r) = board :=
    List.filter_eq_self.2 fun r hr => by simp [hnf r hr]
  have hc : board.countP (fun r => isFullRow r) = 0 :=
    List.countP_eq_zero.2 fun r hr => by simp [hnf r hr]
  have hle : (board.filter fun r => !isFullRow r).length ≤ R := by
    rw [hfe, hR]
  rw [clearFullLines_eq C R board hle, hfe, hc, hR]
  simp

/-- C4: `clear_full_lines` removes exactly the rows whose every cell is
`Occured`, keeps the remaining rows in their relative order at the bottom of
the grid, pads the top with empty rows, and returns the number of removed
rows; on a board without a full row it returns `0` and leaves the grid
unchanged, and hence it is idempotent. -/
theorem clearFullLines_spec (C R : Nat) (board : List (List Cell))
    (hR : board.length = R) (hC : 0 < C) :
    clearFullLines C R board =
      (List.replicate (R - (board.filter fun r => !isFullRow r).length)
          (emptyRow C) ++ board.filter fun r => !isFullRow r,
       board.countP fun r => isFullRow r) ∧
    ((∀ r ∈ board, isFullRow r = false) →
      clearFullLines C R board = (board, 0)) ∧
    clearFullLines C R (clearFullLines C R board).1 =
      ((clearFullLines C R board).1, 0) := by
  have hle : (board.filter fun r => !isFullRow r).length ≤ R := by
    calc (board.filter fun r => !isFullRow r).length ≤ board.length :=
          List.length_filter_le _ _
      _ = R := hR
  refine ⟨clearFullLines_eq C R board hle,
    fun hnf => clearFullLines_of_no_full C R board hR hnf, ?_⟩
  have h1 := clearFullLines_eq C R board hle
  apply clearFullLines_of_no_full
  · rw [h1]
    simp only [List.length_append, List.length_replicate]
    omega
  · intro r hr
    rw [h1] at hr
    rcases List.mem_append.1 hr with hrep | hfil
    · rw [List.eq_of_mem_replicate hrep]
      exact isFullRow_emptyRow C hC
    · have := (List.mem_filter.1 hfil).2
      simpa using this

/-- Witness for `clearFullLines_spec`: a 1×1 board holding one full row. -/
theorem clearFullLines_spec_witness :
    clearFullLines 1 1 [[Cell.Occured]] =
      (List.replicate
          (1 - ([[Cell.Occured]].filter fun r => !isFullRow r).length)
          (emptyRow 1) ++ [[Cell.Occured]].filter fun r => !isFullRow r,
       [[Cell.Occured]].countP fun r => isFullRow r) :=
  (clearFullLines_spec 1 1 [[Cell.Occured]] rfl (by decide)).1

/-- C5: evaluating `clear_full_lines` on the empty 10×20 board — a board in
which no line is full.  The function completes and every grid write is in
bounds (`oob = false`), but the final decrement of `new_board_line_index`
underflows the `usize` (`underflow = true`): the claim that no index
arithmetic underflows fails on exactly the boards the claim singles out. -/
theorem clearFullLines_underflows_on_empty_board :
    (clearFullLinesSt 10 20 (emptyBoard 10 20)).underflow = true ∧
    (clearFullLinesSt 10 20 (emptyBoard 10 20)).oob = false ∧
    clearFullLines 10 20 (emptyBoard 10 20) = (emptyBoard 10 20, 0) := by
  decide

/-! ### C7 / C8: the 7-bag piece queue -/

theorem drawN_full_queue (q : List Tetromino) (hq : q ≠ []) (r : RngS) :
    drawN q.length q r =
      Option.some (q.reverse, r.stream r.k, RngS.mk r.stream (r.k + 1)) := by
  induction q using List.reverseRecOn with
  | nil => exact absurd rfl hq
  | append_singleton l x ih =>
    rw [List.length_append, List.length_singleton]
    simp only [drawN, queueNext, List.getLast?_concat, List.dropLast_concat]
    by_cases hl : l = []
    · subst hl
      simp [drawN, queueInit]
    · rw [if_neg (by simpa using hl)]
      dsimp only
      rw [ih hl]
      simp

theorem drawN_append_of (m n : Nat) (q : List Tetromino) (r : RngS)
    (ds1 q2 : List Tetromino) (r2 : RngS) (ds2 q3 : List Tetromino) (r3 : RngS)
    (h1 : drawN m q r = Option.some (ds1, q2, r2))
    (h2 : drawN n q2 r2 = Option.some (ds2, q3, r3)) :
    drawN (m + n) q r = Option.some (ds1 ++ ds2, q3, r3) := by
  induction m generalizing q r ds1 with
  | zero =>
    simp only [drawN, Option.some.injEq, Prod.mk.injEq] at h1
    obtain ⟨rfl, rfl, rfl⟩ := h1
    rw [Nat.zero_add]
    simpa using h2
  | succ m ih =>
    rw [show m + 1 + n = (m + n) + 1 by omega]
    simp only [drawN] at h1 ⊢
    cases hq : queueNext q r with
    | none =>
      rw [hq] at h1
      exact absurd h1 (by simp)
    | some x =>
      obtain ⟨t, qq, rr⟩ := x
      rw [hq] at h1
      dsimp only at h1
      cases hd : drawN m qq rr with
      | none =>
        rw [hd] at h1
        exact absurd h1 (by simp)
      | some y =>
        obtain ⟨ds, qy, ry⟩ := y
        rw [hd] at h1
        simp only [Option.some.injEq, Prod.mk.injEq] at h1
        obtain ⟨rfl, rfl, rfl⟩ := h1
        dsimp only
        rw [ih qq rr ds hd]
        rfl

theorem drawN_append_inv (m n : Nat) (q : List Tetromino) (r : RngS)
    (ds q3 : List Tetromino) (r3 : RngS)
    (h : drawN (m + n) q r = Option.some (ds, q3, r3)) :
    ∃ ds1 q2 r2 ds2, drawN m q r = Option.some (ds1, q2, r2) ∧
      drawN n q2 r2 = Option.some (ds2, q3, r3) ∧ ds = ds1 ++ ds2 ∧
      ds1.length = m := by
  induction m generalizing q r ds with
  | zero =>
    refine ⟨[], q, r, ds, rfl, ?_, by simp, rfl⟩
    rwa [Nat.zero_add] at h
  | succ m ih =>
    rw [show m + 1 + n = (m + n) + 1 by omega] at h
    simp only [drawN] at h
    cases hq : queueNext q r with
    | none =>
      rw [hq] at h
      exact absurd h (by simp)
    | some x =>
      obtain ⟨t, qq, rr⟩ := x
      rw [hq] at h
      dsimp only at h
      cases hd : drawN (m + n) qq rr with
      | none =>
        rw [hd] at h
        exact absurd h (by simp)
      | some y =>
        obtain ⟨dy, qy, ry⟩ := y
        rw [hd] at h
        simp only [Option.some.injEq, Prod.mk.injEq] at h
        obtain ⟨rfl, rfl, rfl⟩ := h
        obtain ⟨ds1, q2, r2, ds2, h1, h2, rfl, hlen⟩ := ih qq rr dy hd
        refine ⟨t :: ds1, q2, r2, ds2, ?_, h2, by simp, by simp [hlen]⟩
        simp only [drawN]
        rw [hq]
        dsimp only
        rw [h1]

theorem drawN_length (n : Nat) (q : List Tetromino) (r : RngS)
    (ds q2 : List Tetromino) (r2 : RngS)
    (h : drawN n q r = Option.some (ds, q2, r2)) : ds.length = n := by
  induction n generalizing q r ds with
  | zero =>
    simp only [drawN, Option.some.injEq, Prod.mk.injEq] at h
    obtain ⟨rfl, -, -⟩ := h
    rfl
  | succ n ih =>
    simp only [drawN] at h
    cases hq : queueNext q r with
    | none =>
      rw [hq] at h
      exact absurd h (by simp)
    | some x =>
      obtain ⟨t, qq, rr⟩ := x
      rw [hq] at h
      dsimp only at h
      cases hd : drawN n qq rr with
      | none =>
        rw [hd] at h
        exact absurd h (by simp)
      | some y =>
        obtain ⟨dy, qy, ry⟩ := y
        rw [hd] at h
        simp only [Option.some.injEq, Prod.mk.injEq] at h
        obtain ⟨rfl, rfl, rfl⟩ := h
        simp [ih qq rr dy hd]

theorem drawN_prefix (q : List Tetromino) (m : Nat) (r : RngS)
    (ds q2 : List Tetromino) (r2 : RngS) (hm : m ≤ q.length)
    (h : drawN m q r = Option.some (ds, q2, r2)) :
    ds = q.reverse.take m := by
  induction q using List.reverseRecOn generalizing m r ds with
  | nil =>
    have hm0 : m = 0 := by simpa using hm
    subst hm0
    simp only [drawN, Option.some.injEq, Prod.mk.injEq] at h
    obtain ⟨rfl, -, -⟩ := h
    simp
  | append_singleton l x ih =>
    cases m with
    | zero =>
      simp only [drawN, Option.some.injEq, Prod.mk.injEq] at h
      obtain ⟨rfl, -, -⟩ := h
      simp
    | succ m =>
      simp only [drawN, queueNext, List.getLast?_concat,
        List.dropLast_concat] at h
      by_cases hl : l = []
      · subst hl
        have hm0 : m = 0 := by simpa using hm
        subst hm0
        simp only [List.isEmpty_nil, if_true, drawN, Option.some.injEq,
          Prod.mk.injEq] at h
        obtain ⟨rfl, -, -⟩ := h
        simp
      · rw [if_neg (by simpa using hl)] at h
        dsimp only at h
        cases hd : drawN m l r with
        | none =>
          rw [hd] at h
          exact absurd h (by simp)
        | some y =>
          obtain ⟨dy, qy, ry⟩ := y
          rw [hd] at h
          simp only [Option.some.injEq, Prod.mk.injEq] at h
          obtain ⟨rfl, rfl, rfl⟩ := h
          have hm' : m ≤ l.length := by
            simpa using Nat.succ_le_succ_iff.1 (by simpa using hm)
          rw [ih m r dy hm' hd]
          simp

theorem joinBags_succ (s : Nat → List Tetromino) (k : Nat) :
    joinBags s (k + 1) = joinBags s k ++ (s k).reverse := by
  simp [joinBags, List.range_succ]

theorem joinBags_length (s : Nat → List Tetromino)
    (hs7 : ∀ i, (s i).length = 7) (k : Nat) :
    (joinBags s k).length = 7 * k := by
  induction k with
  | zero => simp [joinBags]
  | succ k ih =>
    rw [joinBags_succ, List.length_append, ih, List.length_reverse, hs7]
    omega

theorem bag_ne_nil (s : Nat → List Tetromino) (hs7 : ∀ i, (s i).length = 7)
    (i : Nat) : s i ≠ [] := by
  intro he
  have := hs7 i
  rw [he] at this
  simp at this

theorem drawN_seven (s : Nat → List Tetromino) (hs7 : ∀ i, (s i).length = 7)
    (i k : Nat) :
    drawN 7 (s i) (RngS.mk s k) =
      Option.some ((s i).reverse, s k, RngS.mk s (k + 1)) := by
  have h := drawN_full_queue (s i) (bag_ne_nil s hs7 i) (RngS.mk s k)
  rw [hs7 i] at h
  exact h

theorem drawN_bags (s : Nat → List Tetromino) (hs7 : ∀ i, (s i).length = 7)
    (k : Nat) :
    drawN (7 * k) (s 0) (RngS.mk s 1) =
      Option.some (joinBags s k, s k, RngS.mk s (k + 1)) := by
  induction k with
  | zero => simp [drawN, joinBags]
  | succ k ih =>
    have h7 := drawN_seven s hs7 k (k + 1)
    have := drawN_append_of (7 * k) 7 (s 0) (RngS.mk s 1) (joinBags s k)
      (s k) (RngS.mk s (k + 1)) ((s k).reverse) (s (k + 1))
      (RngS.mk s (k + 2)) ih h7
    rw [show 7 * (k + 1) = 7 * k + 7 by omega, this, joinBags_succ]

/-- C7: for every valid random source, the 7 `next()` calls performed right
after a fresh `init` return the first shuffled bag back-to-front — ending in
a refill — and that run contains each of the 7 piece kinds exactly once. -/
theorem queue_fresh_init_seven_draws (s : Nat → List Tetromino)
    (hs : ValidStream s) :
    drawN 7 ((queueInit (RngS.mk s 0)).1) ((queueInit (RngS.mk s 0)).2) =
      Option.some ((s 0).reverse, s 1, RngS.mk s 2) ∧
    ∀ t : Tetromino, ((s 0).reverse).count t = 1 := by
  have hs7 : ∀ i, (s i).length = 7 := fun i => (hs i).length_eq
  constructor
  · exact drawN_seven s hs7 0 1
  · intro t
    have hperm : ((s 0).reverse).Perm canonicalBag :=
      ((s 0).reverse_perm).trans (hs 0)
    rw [hperm.count_eq]
    cases t <;> rfl

/-- Witness for `queue_fresh_init_seven_draws`: the constant canonical
stream. -/
theorem queue_fresh_init_seven_draws_witness :
    drawN 7 ((queueInit (RngS.mk (fun _ => canonicalBag) 0)).1)
        ((queueInit (RngS.mk (fun _ => canonicalBag) 0)).2) =
      Option.some (canonicalBag.reverse, canonicalBag,
        RngS.mk (fun _ => canonicalBag) 2) ∧
    canonicalBag.reverse.count Tetromino.T = 1 :=
  ⟨(queue_fresh_init_seven_draws (fun _ => canonicalBag)
      (fun _ => List.Perm.refl _)).1,
   (queue_fresh_init_seven_draws (fun _ => canonicalBag)
      (fun _ => List.Perm.refl _)).2 Tetromino.T⟩

theorem drawN_getElem (s : Nat → List Tetromino)
    (hs7 : ∀ i, (s i).length = 7) (K n : Nat) (hn : n < K)
    (ds q : List Tetromino) (r : RngS)
    (hd : drawN K (s 0) (RngS.mk s 1) = Option.some (ds, q, r)) :
    ds[n]? = ((s (n / 7)).reverse)[n % 7]? := by
  obtain ⟨ds1, q2, r2, ds2, h1, h2, rfl, hlen1⟩ :=
    drawN_append_inv (7 * (n / 7)) (K - 7 * (n / 7)) (s 0) (RngS.mk s 1)
      ds q r
      (by rw [show 7 * (n / 7) + (K - 7 * (n / 7)) = K by omega]; exact hd)
  have hb := drawN_bags s hs7 (n / 7)
  rw [h1] at hb
  simp only [Option.some.injEq, Prod.mk.injEq] at hb
  obtain ⟨rfl, rfl, rfl⟩ := hb
  rw [List.getElem?_append_right (by rw [joinBags_length s hs7]; omega),
    joinBags_length s hs7]
  by_cases hK : 7 * (n / 7) + 7 ≤ K
  · obtain ⟨e1, q3, r3, e2, g1, g2, rfl, hlen2⟩ :=
      drawN_append_inv 7 (K - 7 * (n / 7) - 7) (s (n / 7))
        (RngS.mk s (n / 7 + 1)) ds2 q r
        (by rw [show 7 + (K - 7 * (n / 7) - 7) = K - 7 * (n / 7) by omega]
            exact h2)
    have hf := drawN_seven s hs7 (n / 7) (n / 7 + 1)
    rw [g1] at hf
    simp only [Option.some.injEq, Prod.mk.injEq] at hf
    obtain ⟨rfl, rfl, rfl⟩ := hf
    rw [show n - 7 * (n / 7) = n % 7 by omega]
    rw [List.getElem?_append, if_pos (by rw [List.length_reverse, hs7]; omega)]
  · have hpre := drawN_prefix (s (n / 7)) (K - 7 * (n / 7))
      (RngS.mk s (n / 7 + 1)) ds2 q r (by rw [hs7]; omega) h2
    rw [hpre, show n - 7 * (n / 7) = n % 7 by omega, List.getElem?_take,
      if_pos (by omega)]

/-- C8 (counterexample): a valid shuffle stream — first the canonical bag
(which ends in `I` and is therefore drawn starting with `I`), then bags
ending in `J` — for which the run of 7 consecutive draws starting at draw
index 1 straddles the first refill and contains `J` twice, so it is not a
permutation of the 7 kinds; the claim fails for runs not aligned with a
refill. -/
theorem queue_straddling_window_not_perm :
    ValidStream cexStream ∧
    (drawN 14 ((queueInit (RngS.mk cexStream 0)).1)
        ((queueInit (RngS.mk cexStream 0)).2)).map (fun z => z.1) =
      Option.some
        [Tetromino.I, Tetromino.O, Tetromino.T, Tetromino.Z, Tetromino.S,
         Tetromino.L, Tetromino.J, Tetromino.J, Tetromino.I, Tetromino.O,
         Tetromino.T, Tetromino.Z, Tetromino.S, Tetromino.L] ∧
    ¬ (([Tetromino.I, Tetromino.O, Tetromino.T, Tetromino.Z, Tetromino.S,
         Tetromino.L, Tetromino.J, Tetromino.J, Tetromino.I, Tetromino.O,
         Tetromino.T, Tetromino.Z, Tetromino.S,
         Tetromino.L].drop 1).take 7).Perm canonicalBag := by
  refine ⟨?_, by decide, by decide⟩
  intro i
  cases i with
  | zero => decide
  | succ n =>
    simp only [cexStream]
    rw [if_neg (Nat.succ_ne_zero n)]
    decide

/-- C8 (amended): after initialization, a run of 7 consecutive draws that is
aligned with the refills (draws `7k .. 7k+6` counted from the fresh init)
is a permutation of all 7 kinds — runs straddling a refill need not be —
and consequently two consecutive draws of the same kind are separated by at
most 12 other draws (their positions differ by at most 13). -/
theorem queue_aligned_bag_windows (s : Nat → List Tetromino)
    (hs : ValidStream s) (K : Nat) (ds q : List Tetromino) (r : RngS)
    (hd : drawN K ((queueInit (RngS.mk s 0)).1) ((queueInit (RngS.mk s 0)).2) =
      Option.some (ds, q, r)) :
    (∀ k, 7 * k + 7 ≤ K → ((ds.drop (7 * k)).take 7).Perm canonicalBag) ∧
    (∀ n m t, n < m → m < K →
      ds[n]? = Option.some t → ds[m]? = Option.some t →
      (∀ j, n < j → j < m → ds[j]? ≠ Option.some t) → m - n ≤ 13) := by
  have hs7 : ∀ i, (s i).length = 7 := fun i => (hs i).length_eq
  have hd' : drawN K (s 0) (RngS.mk s 1) = Option.some (ds, q, r) := hd
  have hK : ds.length = K := drawN_length K (s 0) (RngS.mk s 1) ds q r hd'
  constructor
  · intro k hk
    obtain ⟨ds1, q2, r2, ds2, h1, h2, rfl, hlen1⟩ :=
      drawN_append_inv (7 * k + 7) (K - (7 * k + 7)) (s 0) (RngS.mk s 1)
        ds q r
        (by rw [show 7 * k + 7 + (K - (7 * k + 7)) = K by omega]; exact hd')
    have hb := drawN_bags s hs7 (k + 1)
    rw [show 7 * (k + 1) = 7 * k + 7 by omega, h1] at hb
    simp only [Option.some.injEq, Prod.mk.injEq] at hb
    obtain ⟨rfl, rfl, rfl⟩ := hb
    rw [joinBags_succ, List.append_assoc,
      List.drop_left' (joinBags_length s hs7 k),
      List.take_left' (by rw [List.length_reverse, hs7])]
    exact ((s k).reverse_perm).trans (hs k)
  · intro n m t hnm hmK hdn hdm hbet
    have hfn := drawN_getElem s hs7 K n (by omega) ds q r hd'
    have hfm := drawN_getElem s hs7 K m hmK ds q r hd'
    by_cases hij : m / 7 ≤ n / 7 + 1
    · omega
    · exfalso
      have hmem : t ∈ (s (n / 7 + 1)).reverse := by
        have hcnt : ((s (n / 7 + 1)).reverse).count t = 1 := by
          have hperm : ((s (n / 7 + 1)).reverse).Perm canonicalBag :=
            ((s (n / 7 + 1)).reverse_perm).trans (hs (n / 7 + 1))
          rw [hperm.count_eq]
          cases t <;> rfl
        exact List.count_pos_iff.1 (by omega)
      obtain ⟨p, hp⟩ := List.mem_iff_getElem?.1 hmem
      have hplt : p < 7 := by
        have := (List.getElem?_eq_some.1 hp).1
        rwa [List.length_reverse, hs7] at this
      have hdj := drawN_getElem s hs7 K (7 * (n / 7 + 1) + p)
        (by omega) ds q r hd'
      rw [show (7 * (n / 7 + 1) + p) / 7 = n / 7 + 1 by omega,
        show (7 * (n / 7 + 1) + p) % 7 = p by omega, hp] at hdj
      exact hbet (7 * (n / 7 + 1) + p) (by omega) (by omega) hdj

/-- Witness for `queue_aligned_bag_windows`: the first aligned window of the
constant canonical stream. -/
theorem queue_aligned_bag_windows_witness :
    ((canonicalBag.reverse.drop (7 * 0)).take 7).Perm canonicalBag :=
  (queue_aligned_bag_windows (fun _ => canonicalBag)
      (fun _ => List.Perm.refl _) 7 canonicalBag.reverse canonicalBag
      (RngS.mk (fun _ => canonicalBag) 2) rfl).1 0 (by omega)

/-! ### C6 / C9: the change-notification diff and merge -/

theorem lookupCoord_nil (c : Coordination) :
    lookupCoord [] c = Option.none := rfl

theorem lookupCoord_cons (e : Coordination × Cell)
    (es : List (Coordination × Cell)) (c : Coordination) :
    lookupCoord (e :: es) c =
      if e.1 = c then Option.some e.2 else lookupCoord es c := by
  rw [lookupCoord, List.find?_cons]
  by_cases h : e.1 = c <;> simp [h, lookupCoord]

theorem lookupCoord_eq_none (l : List (Coordination × Cell))
    (c : Coordination) :
    lookupCoord l c = Option.none ↔ c ∉ entryCoords l := by
  simp only [lookupCoord, Option.map_eq_none', List.find?_eq_none,
    entryCoords, List.mem_map, decide_eq_true_eq]
  constructor
  · rintro h ⟨e, he, rfl⟩
    exact h e he rfl
  · intro h e he hc
    exact h ⟨e, he, hc⟩

theorem lookupCoord_append (l1 l2 : List (Coordination × Cell))
    (c : Coordination) :
    lookupCoord (l1 ++ l2) c = (lookupCoord l1 c).or (lookupCoord l2 c) := by
  induction l1 with
  | nil => simp [lookupCoord_nil, Option.none_or]
  | cons e es ih =>
    rw [List.cons_append, lookupCoord_cons, lookupCoord_cons]
    by_cases h : e.1 = c
    · simp [h]
    · simp [h, ih]

theorem overwriteFirst_eq_none (l : List (Coordination × Cell))
    (b : Coordination × Cell) :
    overwriteFirst l b = Option.none ↔ b.1 ∉ entryCoords l := by
  induction l with
  | nil => simp [overwriteFirst, entryCoords]
  | cons e es ih =>
    by_cases h : e.1 = b.1
    · simp [overwriteFirst, h, entryCoords]
    · simp only [overwriteFirst, if_neg h, Option.map_eq_none', ih,
        entryCoords, List.map_cons, List.mem_cons]
      constructor
      · intro hn
        rintro (hc | hc)
        · exact h hc.symm
        · exact hn hc
      · intro hn hc
        exact hn (Or.inr hc)

theorem overwriteFirst_some_spec (l : List (Coordination × Cell))
    (b : Coordination × Cell) (l2 : List (Coordination × Cell))
    (h : overwriteFirst l b = Option.some l2) :
    entryCoords l2 = entryCoords l ∧ l2.length = l.length ∧
    ∀ c, lookupCoord l2 c =
      if c = b.1 then Option.some b.2 else lookupCoord l c := by
  induction l generalizing l2 with
  | nil => exact absurd h (by simp [overwriteFirst])
  | cons e es ih =>
    by_cases he : e.1 = b.1
    · rw [overwriteFirst, if_pos he, Option.some.injEq] at h
      subst h
      refine ⟨by simp [entryCoords], by simp, fun c => ?_⟩
      rw [lookupCoord_cons, lookupCoord_cons]
      by_cases hc : e.1 = c
      · subst hc
        simp [he]
      · have hcb : ¬ c = b.1 := fun hh => hc (by rw [he, hh])
        simp [hc, hcb]
    · rw [overwriteFirst, if_neg he] at h
      obtain ⟨l2', hov, heq⟩ := Option.map_eq_some'.1 h
      subst heq
      obtain ⟨hc1, hc2, hc3⟩ := ih l2' hov
      refine ⟨?_, by simp [hc2], fun c => ?_⟩
      · simp only [entryCoords, List.map_cons] at hc1 ⊢
        rw [hc1]
      · rw [lookupCoord_cons, lookupCoord_cons]
        by_cases hc : e.1 = c
        · subst hc
          simp [he]
        · simp only [if_neg hc]
          rw [hc3 c]

theorem entryCoords_append (l1 l2 : List (Coordination × Cell)) :
    entryCoords (l1 ++ l2) = entryCoords l1 ++ entryCoords l2 := by
  simp [entryCoords]

theorem combinedCoords_nil (sd : List (Coordination × Cell)) :
    combinedCoords sd [] = entryCoords sd := by
  simp [combinedCoords, entryCoords]

theorem combinedCoords_congr (sd sd2 od : List (Coordination × Cell))
    (h : entryCoords sd2 = entryCoords sd) :
    combinedCoords sd2 od = combinedCoords sd od := by
  rw [combinedCoords, combinedCoords, h]

theorem combinedCoords_cons_mem (sd : List (Coordination × Cell))
    (b : Coordination × Cell) (rest : List (Coordination × Cell))
    (hb : b.1 ∈ entryCoords sd) :
    combinedCoords sd (b :: rest) = combinedCoords sd rest := by
  rw [combinedCoords, combinedCoords]
  congr 1
  have : entryCoords (b :: rest) = b.1 :: entryCoords rest := by
    simp [entryCoords]
  rw [this, List.filter_cons]
  simp [hb]

theorem combinedCoords_cons_not_mem (sd : List (Coordination × Cell))
    (b : Coordination × Cell) (rest : List (Coordination × Cell))
    (hb : b.1 ∉ entryCoords sd) (hbr : b.1 ∉ entryCoords rest) :
    combinedCoords sd (b :: rest) = combinedCoords (sd ++ [b]) rest := by
  rw [combinedCoords, combinedCoords, entryCoords_append]
  have h1 : entryCoords (b :: rest) = b.1 :: entryCoords rest := by
    simp [entryCoords]
  have h2 : entryCoords [b] = [b.1] := by simp [entryCoords]
  rw [h1, h2, List.filter_cons]
  have hfc : (entryCoords rest).filter
      (fun c => decide (c ∉ entryCoords sd ++ [b.1])) =
      (entryCoords rest).filter (fun c => decide (c ∉ entryCoords sd)) := by
    refine List.filter_congr fun c hc => ?_
    have hcb : c ≠ b.1 := fun hh => hbr (hh ▸ hc)
    simp [List.mem_append, hcb]
  rw [hfc]
  rw [if_pos (by simpa using hb), List.append_cons]

theorem entryCoords_cons (b : Coordination × Cell)
    (rest : List (Coordination × Cell)) :
    entryCoords (b :: rest) = b.1 :: entryCoords rest := by
  simp [entryCoords]

theorem nodup_entryCoords_append_singleton
    (sd : List (Coordination × Cell)) (b : Coordination × Cell)
    (hsd : (entryCoords sd).Nodup) (hb : b.1 ∉ entryCoords sd) :
    (entryCoords (sd ++ [b])).Nodup := by
  rw [entryCoords_append, List.nodup_append]
  refine ⟨hsd, List.nodup_singleton _, fun a ha hmem => ?_⟩
  have : a = b.1 := by simpa [entryCoords] using hmem
  subst this
  exact hb ha

theorem mergePartialLists_spec (N : Nat)
    (od sd : List (Coordination × Cell))
    (hsd : (entryCoords sd).Nodup) (hod : (entryCoords od).Nodup)
    (hlen : sd.length ≤ N) (hcap : (combinedCoords sd od).length ≤ N) :
    ∃ l, mergePartialLists N sd od = BoardUpdate.Partial l ∧
      entryCoords l = combinedCoords sd od ∧
      ∀ c, lookupCoord l c = (lookupCoord od c).or (lookupCoord sd c) := by
  induction od generalizing sd with
  | nil =>
    exact ⟨sd, rfl, (combinedCoords_nil sd).symm,
      fun c => by rw [lookupCoord_nil, Option.none_or]⟩
  | cons b rest ih =>
    rw [entryCoords_cons, List.nodup_cons] at hod
    obtain ⟨hbr, hodr⟩ := hod
    cases hov : overwriteFirst sd b with
    | some sd2 =>
      obtain ⟨hcoords, hlen2, hlook⟩ := overwriteFirst_some_spec sd b sd2 hov
      have hb1 : b.1 ∈ entryCoords sd := by
        by_contra hbn
        exact absurd ((overwriteFirst_eq_none sd b).2 hbn) (by simp [hov])
      have hcomb : combinedCoords sd (b :: rest) = combinedCoords sd rest :=
        combinedCoords_cons_mem sd b rest hb1
      have hcomb2 : combinedCoords sd2 rest = combinedCoords sd rest :=
        combinedCoords_congr sd sd2 rest hcoords
      obtain ⟨l, hm, hc, hl⟩ := ih sd2 (by rw [hcoords]; exact hsd)
        hodr (by rw [hlen2]; exact hlen)
        (by rw [hcomb2, ← hcomb]; exact hcap)
      refine ⟨l, ?_, ?_, fun c => ?_⟩
      · rw [mergePartialLists, hov]
        exact hm
      · rw [hc, hcomb2, hcomb]
      · rw [hl c, lookupCoord_cons]
        by_cases hc1 : b.1 = c
        · subst hc1
          rw [(lookupCoord_eq_none rest b.1).2 hbr, Option.none_or,
            hlook, if_pos rfl, if_pos rfl]
          rfl
        · rw [if_neg hc1, hlook, if_neg (fun h => hc1 h.symm)]
    | none =>
      have hb1 : b.1 ∉ entryCoords sd := (overwriteFirst_eq_none sd b).1 hov
      have hcomb : combinedCoords sd (b :: rest) =
          combinedCoords (sd ++ [b]) rest :=
        combinedCoords_cons_not_mem sd b rest hb1 hbr
      have hlenb : sd.length + 1 ≤ N := by
        have hge : sd.length + 1 ≤ (combinedCoords sd (b :: rest)).length := by
          rw [combinedCoords, entryCoords_cons, List.filter_cons,
            if_pos (by simpa using hb1)]
          simp [entryCoords]
        omega
      have hpush : sd.length < N := by omega
      obtain ⟨l, hm, hc, hl⟩ := ih (sd ++ [b])
        (nodup_entryCoords_append_singleton sd b hsd hb1) hodr
        (by simp; omega) (by rw [← hcomb]; exact hcap)
      refine ⟨l, ?_, ?_, fun c => ?_⟩
      · rw [mergePartialLists, hov, if_pos hpush]
        exact hm
      · rw [hc, ← hcomb]
      · rw [hl c, lookupCoord_cons, lookupCoord_append]
        by_cases hc1 : b.1 = c
        · subst hc1
          rw [(lookupCoord_eq_none rest b.1).2 hbr, Option.none_or,
            (lookupCoord_eq_none sd b.1).2 hb1, Option.none_or,
            lookupCoord_cons, if_pos rfl, if_pos rfl]
          rfl
        · rw [if_neg hc1]
          have hone : lookupCoord [b] c = Option.none := by
            rw [lookupCoord_cons, if_neg hc1, lookupCoord_nil]
          rw [hone, Option.or_none]

theorem mergePartialLists_full (N : Nat)
    (od sd : List (Coordination × Cell))
    (hsd : (entryCoords sd).Nodup) (hod : (entryCoords od).Nodup)
    (hlen : sd.length ≤ N) (hcap : N < (combinedCoords sd od).length) :
    mergePartialLists N sd od = BoardUpdate.Full := by
  induction od generalizing sd with
  | nil =>
    exfalso
    rw [combinedCoords_nil] at hcap
    have : (entryCoords sd).length = sd.length := by simp [entryCoords]
    omega
  | cons b rest ih =>
    rw [entryCoords_cons, List.nodup_cons] at hod
    obtain ⟨hbr, hodr⟩ := hod
    cases hov : overwriteFirst sd b with
    | some sd2 =>
      obtain ⟨hcoords, hlen2, -⟩ := overwriteFirst_some_spec sd b sd2 hov
      have hb1 : b.1 ∈ entryCoords sd := by
        by_contra hbn
        exact absurd ((overwriteFirst_eq_none sd b).2 hbn) (by simp [hov])
      rw [mergePartialLists, hov]
      refine ih sd2 (by rw [hcoords]; exact hsd) hodr
        (by rw [hlen2]; exact hlen) ?_
      rw [combinedCoords_congr sd sd2 rest hcoords,
        ← combinedCoords_cons_mem sd b rest hb1]
      exact hcap
    | none =>
      have hb1 : b.1 ∉ entryCoords sd := (overwriteFirst_eq_none sd b).1 hov
      rw [mergePartialLists, hov]
      by_cases hpush : sd.length < N
      · rw [if_pos hpush]
        refine ih (sd ++ [b])
          (nodup_entryCoords_append_singleton sd b hsd hb1) hodr
          (by simp; omega) ?_
        rw [← combinedCoords_cons_not_mem sd b rest hb1 hbr]
        exact hcap
      · rw [if_neg hpush]

theorem mergePartialLists_nodup (N : Nat)
    (od sd : List (Coordination × Cell))
    (hsd : (entryCoords sd).Nodup) (hod : (entryCoords od).Nodup)
    (l : List (Coordination × Cell))
    (h : mergePartialLists N sd od = BoardUpdate.Partial l) :
    (entryCoords l).Nodup := by
  induction od generalizing sd with
  | nil =>
    rw [mergePartialLists, BoardUpdate.Partial.injEq] at h
    rw [← h]
    exact hsd
  | cons b rest ih =>
    rw [entryCoords_cons, List.nodup_cons] at hod
    obtain ⟨hbr, hodr⟩ := hod
    cases hov : overwriteFirst sd b with
    | some sd2 =>
      obtain ⟨hcoords, -, -⟩ := overwriteFirst_some_spec sd b sd2 hov
      rw [mergePartialLists, hov] at h
      exact ih sd2 (by rw [hcoords]; exact hsd) hodr h
    | none =>
      have hb1 : b.1 ∉ entryCoords sd := (overwriteFirst_eq_none sd b).1 hov
      rw [mergePartialLists, hov] at h
      by_cases hpush : sd.length < N
      · rw [if_pos hpush] at h
        exact ih (sd ++ [b])
          (nodup_entryCoords_append_singleton sd b hsd hb1) hodr h
      · rw [if_neg hpush] at h
        exact absurd h (by simp)

/-- C6: the merge of change notifications: `Full` absorbs on either side,
`None` is a unit on either side, two Partials within the combined-unique-
coordinate capacity merge to the Partial holding the union of their entries
with the second operand's write winning per coordinate, and two Partials
beyond that capacity merge to `Full`. -/
theorem boardUpdate_merge_spec (N : Nat) (u : BoardUpdate)
    (sd od : List (Coordination × Cell)) :
    BoardUpdate.merge N BoardUpdate.Full u = BoardUpdate.Full ∧
    BoardUpdate.merge N u BoardUpdate.Full = BoardUpdate.Full ∧
    BoardUpdate.merge N BoardUpdate.None u = u ∧
    BoardUpdate.merge N u BoardUpdate.None = u ∧
    ((entryCoords sd).Nodup → (entryCoords od).Nodup → sd.length ≤ N →
      (combinedCoords sd od).length ≤ N →
      ∃ l, BoardUpdate.merge N (BoardUpdate.Partial sd)
            (BoardUpdate.Partial od) = BoardUpdate.Partial l ∧
        entryCoords l = combinedCoords sd od ∧
        ∀ c, lookupCoord l c = (lookupCoord od c).or (lookupCoord sd c)) ∧
    ((entryCoords sd).Nodup → (entryCoords od).Nodup → sd.length ≤ N →
      N < (combinedCoords sd od).length →
      BoardUpdate.merge N (BoardUpdate.Partial sd) (BoardUpdate.Partial od) =
        BoardUpdate.Full) := by
  refine ⟨rfl, ?_, rfl, ?_, ?_, ?_⟩
  · cases u <;> rfl
  · cases u <;> rfl
  · intro h1 h2 h3 h4
    exact mergePartialLists_spec N od sd h1 h2 h3 h4
  · intro h1 h2 h3 h4
    exact mergePartialLists_full N od sd h1 h2 h3 h4

/-- Witness for `boardUpdate_merge_spec`. -/
theorem boardUpdate_merge_spec_witness :
    BoardUpdate.merge 16 BoardUpdate.Full BoardUpdate.None =
      BoardUpdate.Full :=
  (boardUpdate_merge_spec 16 BoardUpdate.None [] []).1

/-- C9: the block-level diff of two duplicate-free 4-block piece positions
is a Partial of at most 8 entries with pairwise-distinct coordinates, and
the Partial/Partial merge of two entry lists with unique coordinates again
has unique coordinates whenever the result is a Partial — so the updates
the state machine produces and accumulates satisfy the uniqueness
invariant. -/
theorem boardUpdate_entries_unique (prev curr : List Coordination)
    (hp4 : prev.length = 4) (hc4 : curr.length = 4)
    (hpn : prev.Nodup) (hcn : curr.Nodup) (N : Nat)
    (sd od : List (Coordination × Cell))
    (hsd : (entryCoords sd).Nodup) (hod : (entryCoords od).Nodup) :
    getPartialUpdate prev curr =
      BoardUpdate.Partial (partialDiffEntries prev curr) ∧
    (partialDiffEntries prev curr).length ≤ 8 ∧
    (entryCoords (partialDiffEntries prev curr)).Nodup ∧
    ∀ l, BoardUpdate.merge N (BoardUpdate.Partial sd)
        (BoardUpdate.Partial od) = BoardUpdate.Partial l →
      (entryCoords l).Nodup := by
  have hco : entryCoords (partialDiffEntries prev curr) =
      (prev.filter fun b => decide (b ∉ curr)) ++
        (curr.filter fun b => decide (b ∉ prev)) := by
    simp only [partialDiffEntries, entryCoords, List.map_append,
      List.map_map]
    rw [show (Prod.fst ∘ fun b : Coordination => (b, Cell.Empty)) = id
        from rfl,
      show (Prod.fst ∘ fun b : Coordination => (b, Cell.Occured)) = id
        from rfl,
      List.map_id, List.map_id]
  refine ⟨rfl, ?_, ?_, ?_⟩
  · have h1 : (prev.filter fun b => decide (b ∉ curr)).length ≤ 4 :=
      hp4 ▸ List.length_filter_le _ _
    have h2 : (curr.filter fun b => decide (b ∉ prev)).length ≤ 4 :=
      hc4 ▸ List.length_filter_le _ _
    rw [partialDiffEntries, List.length_append, List.length_map,
      List.length_map]
    omega
  · rw [hco, List.nodup_append]
    refine ⟨hpn.filter _, hcn.filter _, fun a ha hmem => ?_⟩
    have hnc : a ∉ curr := by simpa using (List.mem_filter.1 ha).2
    exact hnc (List.mem_filter.1 hmem).1
  · intro l h
    exact mergePartialLists_nodup N od sd hsd hod l h

/-- Witness for `boardUpdate_entries_unique`: the diff of an O-piece
position against the same position shifted one row down. -/
theorem boardUpdate_entries_unique_witness :
    (partialDiffEntries
      [Coordination.mk 0 0, Coordination.mk 1 0,
       Coordination.mk 0 1, Coordination.mk 1 1]
      [Coordination.mk 0 1, Coordination.mk 1 1,
       Coordination.mk 0 2, Coordination.mk 1 2]).length ≤ 8 :=
  (boardUpdate_entries_unique
    [Coordination.mk 0 0, Coordination.mk 1 0,
     Coordination.mk 0 1, Coordination.mk 1 1]
    [Coordination.mk 0 1, Coordination.mk 1 1,
     Coordination.mk 0 2, Coordination.mk 1 2]
    rfl rfl (by decide) (by decide) 16 [] []
    (by decide) (by decide)).2.1

/-! ### C1: the SoftDrop branch of `act` -/

theorem boardUpdate_merge_none_left (N : Nat) (u : BoardUpdate) :
    BoardUpdate.merge N BoardUpdate.None u = u := rfl

/-- C1: in a Playing state whose active piece cannot shift down by one row,
`act(SoftDrop)` places the piece's blocks at the current anchor, adds the
number of cleared lines to the score, respawns (rotation reset to `Default`,
anchor reset to the spawn position, next kind popped from the back of the
queue with an eager refill, `GameOver` carrying the score when the spawned
piece cannot be placed) and returns `Full`; when the piece can shift down,
`act(SoftDrop)` only increments the anchor's y by one, leaving board, score,
queue and rng unchanged. -/
theorem act_softDrop_spec (C R : Nat) (board : List (List Cell))
    (piece : Tetromino) (rotation : Rotation) (x y : Int)
    (rest : List Tetromino) (p2 : Tetromino) (score : Nat) (rs : RngS)
    (board2 : List (List Cell)) (cleared : Nat)
    (hplace : place C R board (getTetrominoBlocks piece rotation)
      (Coordination.mk x y) = (board2, cleared)) :
    (canMoveIn C R board (getTetrominoBlocks piece rotation)
        (Coordination.mk x (y + 1)) = false →
      act C R (Tetris.mk board (GameState.Playing piece rotation
          (Coordination.mk x y) (rest ++ [p2]) score) (Option.some rs))
        Action.SoftDrop =
      Option.some (Tetris.mk board2
        (if canMoveIn C R board2 (getTetrominoBlocks p2 Rotation.Default)
            (spawnOffset C) then
          GameState.Playing p2 Rotation.Default (spawnOffset C)
            (if rest.isEmpty then rs.stream rs.k else rest) (score + cleared)
        else GameState.GameOver (score + cleared))
        (Option.some (if rest.isEmpty then RngS.mk rs.stream (rs.k + 1)
          else rs)), BoardUpdate.Full)) ∧
    (canMoveIn C R board (getTetrominoBlocks piece rotation)
        (Coordination.mk x (y + 1)) = true →
      act C R (Tetris.mk board (GameState.Playing piece rotation
          (Coordination.mk x y) (rest ++ [p2]) score) (Option.some rs))
        Action.SoftDrop =
      Option.some (Tetris.mk board (GameState.Playing piece rotation
          (Coordination.mk x (y + 1)) (rest ++ [p2]) score) (Option.some rs),
        getPartialUpdate
          (getCurrentTetrominoPosition (Tetris.mk board
            (GameState.Playing piece rotation (Coordination.mk x y)
              (rest ++ [p2]) score) (Option.some rs)))
          (getCurrentTetrominoPosition (Tetris.mk board
            (GameState.Playing piece rotation (Coordination.mk x (y + 1))
              (rest ++ [p2]) score) (Option.some rs))))) := by
  constructor
  · intro h
    have hsc : (if 0 < cleared then score + cleared else score) =
        score + cleared := by
      split <;> omega
    by_cases hre : rest.isEmpty
    · simp only [act, actSoftDrop, spawnNewPiece, queueNext, queueInit,
        List.getLast?_concat, List.dropLast_concat, h, hre, hplace, hsc,
        Bool.false_eq_true, if_false, if_true]
      by_cases hsp : canMoveIn C R board2
          (getTetrominoBlocks p2 Rotation.Default) (spawnOffset C) = true
      · rw [if_pos hsp, if_pos hsp]
      · rw [if_neg hsp, if_neg hsp]
    · simp only [act, actSoftDrop, spawnNewPiece, queueNext, queueInit,
        List.getLast?_concat, List.dropLast_concat, h, hre, hplace, hsc,
        Bool.false_eq_true, if_false, if_true]
      by_cases hsp : canMoveIn C R board2
          (getTetrominoBlocks p2 Rotation.Default) (spawnOffset C) = true
      · rw [if_pos hsp, if_pos hsp]
      · rw [if_neg hsp, if_neg hsp]
  · intro h
    simp only [act, actSoftDrop, h, if_true, boardUpdate_merge_none_left]

/-- Witness for `act_softDrop_spec`: an O-piece resting on the floor of the
empty 4×6 board. -/
theorem act_softDrop_spec_witness :
    canMoveIn 4 6 (emptyBoard 4 6)
      (getTetrominoBlocks Tetromino.O Rotation.Default)
      (Coordination.mk 0 (4 + 1)) = false ∧
    act 4 6 (Tetris.mk (emptyBoard 4 6)
        (GameState.Playing Tetromino.O Rotation.Default
          (Coordination.mk 0 4) ([] ++ [Tetromino.I]) 0)
        (Option.some (RngS.mk (fun _ => canonicalBag) 0))) Action.SoftDrop =
      Option.some (Tetris.mk
        (place 4 6 (emptyBoard 4 6)
          (getTetrominoBlocks Tetromino.O Rotation.Default)
          (Coordination.mk 0 4)).1
        (if canMoveIn 4 6
            (place 4 6 (emptyBoard 4 6)
              (getTetrominoBlocks Tetromino.O Rotation.Default)
              (Coordination.mk 0 4)).1
            (getTetrominoBlocks Tetromino.I Rotation.Default)
            (spawnOffset 4) then
          GameState.Playing Tetromino.I Rotation.Default (spawnOffset 4)
            (if List.isEmpty ([] : List Tetromino) then
              (RngS.mk (fun _ => canonicalBag) 0).stream
                (RngS.mk (fun _ => canonicalBag) 0).k
             else [])
            (0 + (place 4 6 (emptyBoard 4 6)
              (getTetrominoBlocks Tetromino.O Rotation.Default)
              (Coordination.mk 0 4)).2)
        else GameState.GameOver (0 + (place 4 6 (emptyBoard 4 6)
          (getTetrominoBlocks Tetromino.O Rotation.Default)
          (Coordination.mk 0 4)).2))
        (Option.some (if List.isEmpty ([] : List Tetromino) then
          RngS.mk (RngS.mk (fun _ => canonicalBag) 0).stream
            ((RngS.mk (fun _ => canonicalBag) 0).k + 1)
          else RngS.mk (fun _ => canonicalBag) 0)), BoardUpdate.Full) :=
  ⟨by decide,
   (act_softDrop_spec 4 6 (emptyBoard 4 6) Tetromino.O Rotation.Default
      0 4 [] Tetromino.I 0 (RngS.mk (fun _ => canonicalBag) 0)
      (place 4 6 (emptyBoard 4 6)
        (getTetrominoBlocks Tetromino.O Rotation.Default)
        (Coordination.mk 0 4)).1
      (place 4 6 (emptyBoard 4 6)
        (getTetrominoBlocks Tetromino.O Rotation.Default)
        (Coordination.mk 0 4)).2 rfl).1 (by decide)⟩

/-! ### C2: the HardDrop branch of `act` -/

theorem getTetrominoBlocks_bounds (p : Tetromino) (r : Rotation) :
    ∀ b ∈ getTetrominoBlocks p r,
      0 ≤ b.x ∧ b.x ≤ 3 ∧ 0 ≤ b.y ∧ b.y ≤ 3 := by
  cases p <;> cases r <;> decide

theorem canMoveIn_false_of_ge (C R : Nat) (board : List (List Cell))
    (blocks : List Coordination) (x y : Int)
    (hb : ∃ b ∈ blocks, 0 ≤ b.y) (hy : (R : Int) ≤ y) :
    canMoveIn C R board blocks (Coordination.mk x y) = false := by
  obtain ⟨b, hbm, hbnn⟩ := hb
  rw [canMoveIn, List.all_eq_false]
  refine ⟨b, hbm, ?_⟩
  show ¬ ((if b.y + y < 0 then true
      else if (R : Int) ≤ b.y + y ∨ b.x + x < 0 ∨ (C : Int) ≤ b.x + x
      then false
      else !(cellAt board (b.y + y).toNat (b.x + x).toNat ==
        Cell.Occured)) = true)
  rw [if_neg (by omega), if_pos (Or.inl (by omega))]
  simp

theorem hardDropProbe_spec (C R : Nat) (board : List (List Cell))
    (blocks : List Coordination) (hb : ∃ b ∈ blocks, 0 ≤ b.y) (x : Int)
    (fuel : Nat) :
    ∀ y : Int, ((R : Int) - y).toNat < fuel →
      y ≤ hardDropProbe C R board blocks x fuel y ∧
      canMoveIn C R board blocks
        (Coordination.mk x (hardDropProbe C R board blocks x fuel y + 1)) =
        false ∧
      ∀ z : Int, y < z → z ≤ hardDropProbe C R board blocks x fuel y →
        canMoveIn C R board blocks (Coordination.mk x z) = true := by
  induction fuel with
  | zero =>
    intro y hy
    exact absurd hy (by omega)
  | succ fuel ih =>
    intro y hy
    rw [hardDropProbe]
    by_cases hc : canMoveIn C R board blocks (Coordination.mk x (y + 1)) = true
    · rw [if_pos hc]
      have hyR : y + 1 < (R : Int) := by
        by_contra hge
        push_neg at hge
        have hfalse := canMoveIn_false_of_ge C R board blocks x (y + 1) hb hge
        rw [hfalse] at hc
        exact absurd hc (by simp)
      obtain ⟨h1, h2, h3⟩ := ih (y + 1) (by omega)
      refine ⟨by omega, h2, fun z hz1 hz2 => ?_⟩
      rcases eq_or_lt_of_le (show y + 1 ≤ z by omega) with heq | hlt
      · rw [← heq]
        exact hc
      · exact h3 z hlt hz2
    · rw [if_neg hc]
      have hcf : canMoveIn C R board blocks (Coordination.mk x (y + 1)) =
          false := by
        simpa using hc
      exact ⟨le_refl y, hcf, fun z hz1 hz2 => absurd hz2 (by omega)⟩

/-- C2: `act(HardDrop)` equals moving the anchor's y to the final resting
position — the greatest y at or below which every intermediate downward
step still passes `can_move_in` and whose next step fails — and then
performing `act(SoftDrop)` there: the probe loop's result is that resting y
and the HardDrop branch delegates to the SoftDrop branch at it, so game
state, board, score and the returned notification all coincide. -/
theorem act_hardDrop_refines (C R : Nat) (board : List (List Cell))
    (piece : Tetromino) (rotation : Rotation) (x y : Int)
    (queue : List Tetromino) (score : Nat) (rng : Option RngS) :
    y ≤ hardDropProbe C R board (getTetrominoBlocks piece rotation) x
      (((R : Int) - y).toNat + 1) y ∧
    canMoveIn C R board (getTetrominoBlocks piece rotation)
      (Coordination.mk x (hardDropProbe C R board
        (getTetrominoBlocks piece rotation) x
        (((R : Int) - y).toNat + 1) y + 1)) = false ∧
    (∀ z : Int, y < z →
      z ≤ hardDropProbe C R board (getTetrominoBlocks piece rotation) x
        (((R : Int) - y).toNat + 1) y →
      canMoveIn C R board (getTetrominoBlocks piece rotation)
        (Coordination.mk x z) = true) ∧
    act C R (Tetris.mk board (GameState.Playing piece rotation
        (Coordination.mk x y) queue score) rng) Action.HardDrop =
      act C R (Tetris.mk board (GameState.Playing piece rotation
        (Coordination.mk x (hardDropProbe C R board
          (getTetrominoBlocks piece rotation) x
          (((R : Int) - y).toNat + 1) y)) queue score) rng)
        Action.SoftDrop := by
  have hb : ∃ b ∈ getTetrominoBlocks piece rotation, 0 ≤ b.y := by
    cases piece <;> cases rotation <;> decide
  obtain ⟨h1, h2, h3⟩ := hardDropProbe_spec C R board
    (getTetrominoBlocks piece rotation) hb x (((R : Int) - y).toNat + 1) y
    (by omega)
  exact ⟨h1, h2, h3, rfl⟩

/-- Witness for `act_hardDrop_refines`: an O-piece dropped from the top of
the empty 4×6 board. -/
theorem act_hardDrop_refines_witness :
    canMoveIn 4 6 (emptyBoard 4 6)
      (getTetrominoBlocks Tetromino.O Rotation.Default)
      (Coordination.mk 0 (hardDropProbe 4 6 (emptyBoard 4 6)
        (getTetrominoBlocks Tetromino.O Rotation.Default) 0
        (((6 : Int) - 0).toNat + 1) 0 + 1)) = false ∧
    act 4 6 (Tetris.mk (emptyBoard 4 6) (GameState.Playing Tetromino.O
        Rotation.Default (Coordination.mk 0 0) [Tetromino.I] 0)
        (Option.some (RngS.mk (fun _ => canonicalBag) 0)))
      Action.HardDrop =
    act 4 6 (Tetris.mk (emptyBoard 4 6) (GameState.Playing Tetromino.O
        Rotation.Default (Coordination.mk 0 (hardDropProbe 4 6
          (emptyBoard 4 6) (getTetrominoBlocks Tetromino.O Rotation.Default)
          0 (((6 : Int) - 0).toNat + 1) 0)) [Tetromino.I] 0)
        (Option.some (RngS.mk (fun _ => canonicalBag) 0)))
      Action.SoftDrop :=
  ⟨(act_hardDrop_refines 4 6 (emptyBoard 4 6) Tetromino.O Rotation.Default
      0 0 [Tetromino.I] 0
      (Option.some (RngS.mk (fun _ => canonicalBag) 0))).2.1,
   (act_hardDrop_refines 4 6 (emptyBoard 4 6) Tetromino.O Rotation.Default
      0 0 [Tetromino.I] 0
      (Option.some (RngS.mk (fun _ => canonicalBag) 0))).2.2.2⟩

/-! ### C3: the Rotate branch of `act` -/

theorem wb_left_only (C : Nat) (off : Coordination)
    (blocks : List Coordination)
    (hall : ∀ b ∈ blocks, b.x + off.x < (C : Int)) (m0 : Int) (hm0 : 0 ≤ m0) :
    m0 ≤ blocks.foldl (wbStep C off) m0 ∧
    (∀ b ∈ blocks, -(b.x + off.x) ≤ blocks.foldl (wbStep C off) m0) ∧
    (blocks.foldl (wbStep C off) m0 = m0 ∨
      ∃ b ∈ blocks, b.x + off.x < 0 ∧
        blocks.foldl (wbStep C off) m0 = -(b.x + off.x)) := by
  induction blocks generalizing m0 with
  | nil => exact ⟨le_refl _, by simp, Or.inl rfl⟩
  | cons b bs ih =>
    have hb := hall b (by simp)
    have hall2 : ∀ b2 ∈ bs, b2.x + off.x < (C : Int) := fun b2 h2 =>
      hall b2 (by simp [h2])
    rw [List.foldl_cons]
    by_cases hneg : b.x + off.x < 0
    · have hstep : wbStep C off m0 b = max m0 (-(b.x + off.x)) := by
        simp [wbStep, hneg]
      rw [hstep]
      obtain ⟨h1, h2, h3⟩ := ih hall2 (max m0 (-(b.x + off.x)))
        (le_trans hm0 (le_max_left _ _))
      refine ⟨le_trans (le_max_left _ _) h1, ?_, ?_⟩
      · intro b2 hb2
        rcases List.mem_cons.1 hb2 with rfl | h2m
        · exact le_trans (le_max_right _ _) h1
        · exact h2 b2 h2m
      · rcases h3 with he | ⟨b2, hb2m, hb2n, heq⟩
        · rcases max_cases m0 (-(b.x + off.x)) with ⟨hm, -⟩ | ⟨hm, -⟩
          · exact Or.inl (by rw [he, hm])
          · exact Or.inr ⟨b, by simp, hneg, by rw [he, hm]⟩
        · exact Or.inr ⟨b2, List.mem_cons_of_mem _ hb2m, hb2n, heq⟩
    · have hpos : ¬ ((C : Int) ≤ b.x + off.x) := by omega
      have hstep : wbStep C off m0 b = m0 := by simp [wbStep, hneg, hpos]
      rw [hstep]
      obtain ⟨h1, h2, h3⟩ := ih hall2 m0 hm0
      refine ⟨h1, ?_, ?_⟩
      · intro b2 hb2
        rcases List.mem_cons.1 hb2 with rfl | h2m
        · have h0 : -(b2.x + off.x) ≤ m0 := by omega
          exact le_trans h0 h1
        · exact h2 b2 h2m
      · rcases h3 with he | ⟨b2, hb2m, hb2n, heq⟩
        · exact Or.inl he
        · exact Or.inr ⟨b2, List.mem_cons_of_mem _ hb2m, hb2n, heq⟩

theorem wb_right_only (C : Nat) (off : Coordination)
    (blocks : List Coordination)
    (hall : ∀ b ∈ blocks, 0 ≤ b.x + off.x) (m0 : Int) (hm0 : m0 ≤ 0) :
    blocks.foldl (wbStep C off) m0 ≤ m0 ∧
    (∀ b ∈ blocks, (C : Int) ≤ b.x + off.x →
      blocks.foldl (wbStep C off) m0 ≤ (C : Int) - 1 - (b.x + off.x)) ∧
    (blocks.foldl (wbStep C off) m0 = m0 ∨
      ∃ b ∈ blocks, (C : Int) ≤ b.x + off.x ∧
        blocks.foldl (wbStep C off) m0 = (C : Int) - 1 - (b.x + off.x)) := by
  induction blocks generalizing m0 with
  | nil => exact ⟨le_refl _, by simp, Or.inl rfl⟩
  | cons b bs ih =>
    have hb := hall b (by simp)
    have hall2 : ∀ b2 ∈ bs, 0 ≤ b2.x + off.x := fun b2 h2 =>
      hall b2 (by simp [h2])
    rw [List.foldl_cons]
    have hneg : ¬ (b.x + off.x < 0) := by omega
    by_cases hge : (C : Int) ≤ b.x + off.x
    · have hstep : wbStep C off m0 b =
          min m0 ((C : Int) - (b.x + off.x) - 1) := by
        simp [wbStep, hneg, hge]
      rw [hstep]
      obtain ⟨h1, h2, h3⟩ := ih hall2 (min m0 ((C : Int) - (b.x + off.x) - 1))
        (le_trans (min_le_left _ _) hm0)
      refine ⟨le_trans h1 (min_le_left _ _), ?_, ?_⟩
      · intro b2 hb2
        rcases List.mem_cons.1 hb2 with rfl | h2m
        · intro _
          have hm := le_trans h1 (min_le_right _ _)
          omega
        · exact fun hc => h2 b2 h2m hc
      · rcases h3 with he | ⟨b2, hb2m, hb2n, heq⟩
        · rcases min_cases m0 ((C : Int) - (b.x + off.x) - 1) with
            ⟨hm, -⟩ | ⟨hm, -⟩
          · exact Or.inl (by rw [he, hm])
          · refine Or.inr ⟨b, by simp, hge, by rw [he, hm]; omega⟩
        · exact Or.inr ⟨b2, List.mem_cons_of_mem _ hb2m, hb2n, heq⟩
    · have hstep : wbStep C off m0 b = m0 := by simp [wbStep, hneg, hge]
      rw [hstep]
      obtain ⟨h1, h2, h3⟩ := ih hall2 m0 hm0
      refine ⟨h1, ?_, ?_⟩
      · intro b2 hb2
        rcases List.mem_cons.1 hb2 with rfl | h2m
        · intro hc
          exact absurd hc hge
        · exact h2 b2 h2m
      · rcases h3 with he | ⟨b2, hb2m, hb2n, heq⟩
        · exact Or.inl he
        · exact Or.inr ⟨b2, List.mem_cons_of_mem _ hb2m, hb2n, heq⟩

/-- A tetromino (local x span at most 3) on a board at least 4 cells wide
ends up with every block's x inside `[0, C)` after the wall-bounce
correction. -/
theorem wallBounce_inBounds (C : Nat) (hC : 4 ≤ C)
    (blocks : List Coordination) (off : Coordination)
    (hb : ∀ b ∈ blocks, 0 ≤ b.x ∧ b.x ≤ 3) :
    ∀ b ∈ blocks,
      0 ≤ b.x + off.x + wallBounceOffsetModifier C blocks off ∧
      b.x + off.x + wallBounceOffsetModifier C blocks off < (C : Int) := by
  rw [show wallBounceOffsetModifier C blocks off =
    blocks.foldl (wbStep C off) 0 from rfl]
  by_cases hneg : ∃ b ∈ blocks, b.x + off.x < 0
  · obtain ⟨b1, hb1m, hb1⟩ := hneg
    have hall : ∀ b ∈ blocks, b.x + off.x < (C : Int) := by
      intro b2 hb2m
      have e1 := hb b2 hb2m
      have e2 := hb b1 hb1m
      omega
    obtain ⟨h1, h2, h3⟩ := wb_left_only C off blocks hall 0 (le_refl 0)
    intro b hbm
    constructor
    · rcases lt_or_le (b.x + off.x) 0 with hlt | hge
      · have := h2 b hbm
        omega
      · omega
    · rcases h3 with he | ⟨b2, hb2m, hb2n, heq⟩
      · rw [he]
        have := hall b hbm
        omega
      · rw [heq]
        have e1 := hb b hbm
        have e2 := hb b2 hb2m
        omega
  · push_neg at hneg
    obtain ⟨h1, h2, h3⟩ := wb_right_only C off blocks hneg 0 (le_refl 0)
    intro b hbm
    constructor
    · rcases h3 with he | ⟨b2, hb2m, hb2ge, heq⟩
      · rw [he]
        have := hneg b hbm
        omega
      · rw [heq]
        have e1 := hb b hbm
        have e2 := hb b2 hb2m
        omega
    · rcases lt_or_le (b.x + off.x) (C : Int) with hlt | hge
      · omega
      · have := h2 b hbm hge
        omega

/-- C3: in every Playing state on a board at least 4 cells wide,
`act(Rotate)` either commits the next rotation of the fixed cycle together
with the wall-kick-corrected anchor — in which case every block with
non-negative absolute y lies inside `[0, C) × [0, R)` on a non-occupied
cell, and every block (also those still above the board) has its absolute x
inside `[0, C)` — or, when `can_move_in` rejects the corrected placement,
leaves the state byte-for-byte unchanged and returns the `None`
notification. -/
theorem act_rotate_spec (C R : Nat) (hC : 4 ≤ C)
    (board : List (List Cell)) (piece : Tetromino) (rotation : Rotation)
    (x y : Int) (queue : List Tetromino) (score : Nat) (rng : Option RngS) :
    (canMoveIn C R board (getTetrominoBlocks piece (nextRotation rotation))
        (Coordination.mk (x + wallBounceOffsetModifier C
          (getTetrominoBlocks piece (nextRotation rotation))
          (Coordination.mk x y)) y) = true →
      (∃ u, act C R (Tetris.mk board (GameState.Playing piece rotation
          (Coordination.mk x y) queue score) rng) Action.Rotate =
        Option.some (Tetris.mk board (GameState.Playing piece
          (nextRotation rotation)
          (Coordination.mk (x + wallBounceOffsetModifier C
            (getTetrominoBlocks piece (nextRotation rotation))
            (Coordination.mk x y)) y) queue score) rng, u)) ∧
      (∀ b ∈ getTetrominoBlocks piece (nextRotation rotation),
        0 ≤ b.y + y →
          b.y + y < (R : Int) ∧
          0 ≤ b.x + (x + wallBounceOffsetModifier C
            (getTetrominoBlocks piece (nextRotation rotation))
            (Coordination.mk x y)) ∧
          b.x + (x + wallBounceOffsetModifier C
            (getTetrominoBlocks piece (nextRotation rotation))
            (Coordination.mk x y)) < (C : Int) ∧
          cellAt board (b.y + y).toNat
            (b.x + (x + wallBounceOffsetModifier C
              (getTetrominoBlocks piece (nextRotation rotation))
              (Coordination.mk x y))).toNat ≠ Cell.Occured) ∧
      (∀ b ∈ getTetrominoBlocks piece (nextRotation rotation),
        0 ≤ b.x + (x + wallBounceOffsetModifier C
          (getTetrominoBlocks piece (nextRotation rotation))
          (Coordination.mk x y)) ∧
        b.x + (x + wallBounceOffsetModifier C
          (getTetrominoBlocks piece (nextRotation rotation))
          (Coordination.mk x y)) < (C : Int))) ∧
    (canMoveIn C R board (getTetrominoBlocks piece (nextRotation rotation))
        (Coordination.mk (x + wallBounceOffsetModifier C
          (getTetrominoBlocks piece (nextRotation rotation))
          (Coordination.mk x y)) y) = false →
      act C R (Tetris.mk board (GameState.Playing piece rotation
        (Coordination.mk x y) queue score) rng) Action.Rotate =
      Option.some (Tetris.mk board (GameState.Playing piece rotation
        (Coordination.mk x y) queue score) rng, BoardUpdate.None)) := by
  constructor
  · intro h
    refine ⟨?_, ?_, ?_⟩
    · have hred : act C R (Tetris.mk board (GameState.Playing piece rotation
          (Coordination.mk x y) queue score) rng) Action.Rotate =
          Option.some (Tetris.mk board (GameState.Playing piece
            (nextRotation rotation)
            (Coordination.mk (x + wallBounceOffsetModifier C
              (getTetrominoBlocks piece (nextRotation rotation))
              (Coordination.mk x y)) y) queue score) rng,
            BoardUpdate.merge 16 BoardUpdate.None
              (getPartialUpdate
                (getCurrentTetrominoPosition (Tetris.mk board
                  (GameState.Playing piece rotation (Coordination.mk x y)
                    queue score) rng))
                (getCurrentTetrominoPosition (Tetris.mk board
                  (GameState.Playing piece (nextRotation rotation)
                    (Coordination.mk (x + wallBounceOffsetModifier C
                      (getTetrominoBlocks piece (nextRotation rotation))
                      (Coordination.mk x y)) y) queue score) rng)))) := by
        simp only [act, h, if_true]
      exact ⟨_, hred⟩
    · intro b hbm hy
      have hchar := (canMoveIn_characterization C R board
        (getTetrominoBlocks piece (nextRotation rotation))
        (Coordination.mk (x + wallBounceOffsetModifier C
          (getTetrominoBlocks piece (nextRotation rotation))
          (Coordination.mk x y)) y)).1 h b hbm hy
      exact hchar
    · intro b hbm
      have hsb : ∀ b2 ∈ getTetrominoBlocks piece (nextRotation rotation),
          0 ≤ b2.x ∧ b2.x ≤ 3 := fun b2 h2 => by
        have := getTetrominoBlocks_bounds piece (nextRotation rotation) b2 h2
        exact ⟨this.1, this.2.1⟩
      have := wallBounce_inBounds C hC
        (getTetrominoBlocks piece (nextRotation rotation))
        (Coordination.mk x y) hsb b hbm
      dsimp only at this
      constructor
      · have h1 := this.1
        omega
      · have h2 := this.2
        omega
  · intro h
    simp only [act, h, Bool.false_eq_true, if_false]

/-- Witness for `act_rotate_spec`: a rejected rotation — a vertical I-piece
whose horizontal target row has an occupied cell — leaves the state
unchanged and reports `None`. -/
theorem act_rotate_spec_witness :
    canMoveIn 4 6 (setCell (emptyBoard 4 6) 3 0 Cell.Occured)
      (getTetrominoBlocks Tetromino.I (nextRotation Rotation.Default))
      (Coordination.mk (0 + wallBounceOffsetModifier 4
        (getTetrominoBlocks Tetromino.I (nextRotation Rotation.Default))
        (Coordination.mk 0 2)) 2) = false ∧
    act 4 6 (Tetris.mk (setCell (emptyBoard 4 6) 3 0 Cell.Occured)
        (GameState.Playing Tetromino.I Rotation.Default
          (Coordination.mk 0 2) [Tetromino.I] 0)
        (Option.some (RngS.mk (fun _ => canonicalBag) 0))) Action.Rotate =
      Option.some (Tetris.mk (setCell (emptyBoard 4 6) 3 0 Cell.Occured)
        (GameState.Playing Tetromino.I Rotation.Default
          (Coordination.mk 0 2) [Tetromino.I] 0)
        (Option.some (RngS.mk (fun _ => canonicalBag) 0)),
        BoardUpdate.None) :=
  ⟨by decide,
   (act_rotate_spec 4 6 (by omega) (setCell (emptyBoard 4 6) 3 0
      Cell.Occured) Tetromino.I Rotation.Default 0 2 [Tetromino.I] 0
      (Option.some (RngS.mk (fun _ => canonicalBag) 0))).2 (by decide)⟩

end Tet
